import Mathlib

/-!
Verification of the OCR background-replacer service (`src/main.py`).

The development shallowly embeds the image-processing pipeline of the
`/process` endpoint: theme resolution and two-tone background synthesis
(`build_background`, lines 33-81), grayscale conversion, histogram-percentile
thresholding and mask extraction (lines 113-124), mask-driven compositing and
low-alpha overlay of the original (lines 126-138), and the request driver with
its error handling (lines 99-148).

Images are embedded as lists of rows of pixels; machine bytes are `ℕ`
constrained by validity predicates.  The pixel-level arithmetic of the imaging
library calls (`Image.composite`, `Image.alpha_composite`, `convert("L")`) is
embedded from Pillow's fixed-point implementations (Paste.c `BLEND` /
`MULDIV255`, AlphaComposite.c, convert.c `L24`), so that the repository's calls
into the library have concrete, executable semantics.
-/

set_option maxRecDepth 16384

namespace OCRMain

/-- A three-channel color pixel; channel values are bytes (0..255). -/
structure RGB where
  r : ℕ
  g : ℕ
  b : ℕ
deriving DecidableEq

/-- A color image: a list of pixel rows. -/
abbrev Img := List (List RGB)

/-- A single-channel (grayscale / mask) image: a list of rows of intensities. -/
abbrev GrayImg := List (List ℕ)

/-- A four-channel pixel, as used by the RGBA stage of the pipeline. -/
structure RGBA where
  r : ℕ
  g : ℕ
  b : ℕ
  a : ℕ
deriving DecidableEq

/-- The image is a `w × h` rectangle: `h` rows, each of length `w`. -/
def Rect {α : Type} (im : List (List α)) (w h : ℕ) : Prop :=
  im.length = h ∧ ∀ row ∈ im, row.length = w

/-- All channel values of the image are bytes. -/
def ValidImg (im : Img) : Prop :=
  ∀ row ∈ im, ∀ p ∈ row, p.r ≤ 255 ∧ p.g ≤ 255 ∧ p.b ≤ 255

/-- All intensities of a single-channel image are bytes. -/
def GrayValid (g : GrayImg) : Prop :=
  ∀ row ∈ g, ∀ p ∈ row, p ≤ 255

/-- Width of an image, as PIL's `size[0]`: the length of its first row. -/
def width (im : Img) : ℕ := (im.headD []).length

/-- Height of an image, as PIL's `size[1]`. -/
def height (im : Img) : ℕ := im.length

/-- Number of pixels of a single-channel image. -/
def numPixels (g : GrayImg) : ℕ := (g.map List.length).sum

/-- Pixel of a color image at row `r`, column `c` (defaulting out of range). -/
def pixelAt (im : Img) (r c : ℕ) : RGB := (im.getD r []).getD c ⟨0, 0, 0⟩

/-- Intensity of a single-channel image at row `r`, column `c`. -/
def grayAt (g : GrayImg) (r c : ℕ) : ℕ := (g.getD r []).getD c 0

/-! ### Theme resolution (src/main.py lines 35-74)

`build_background` first normalizes the theme name (`(theme or "light").lower()`:
the empty string is the only falsy `str`, so it is replaced by `"light"` before
lower-casing), sets the default ("light") colors, and then overrides them in an
`elif` chain on the recognized names.  We factor the table through the
normalized name exactly as the Python code does. -/

/-- Color table of `build_background` on the already-normalized theme name:
the default ("light") triple, overridden by the `elif` chain. Returns
`(color1, color2, text_color)` = (top color, bottom color, text color). -/
def themeColorsOfNorm (t : String) : RGB × RGB × RGB :=
  if t = "dark" then (⟨11, 12, 16⟩, ⟨18, 19, 24⟩, ⟨245, 245, 245⟩)
  else if t = "blue" then (⟨219, 234, 254⟩, ⟨191, 219, 254⟩, ⟨17, 24, 39⟩)
  else if t = "brand" then (⟨250, 245, 255⟩, ⟨236, 233, 255⟩, ⟨24, 24, 27⟩)
  else if t = "purple" then (⟨238, 233, 255⟩, ⟨221, 214, 254⟩, ⟨30, 27, 75⟩)
  else if t = "emerald" then (⟨209, 250, 229⟩, ⟨167, 243, 208⟩, ⟨6, 78, 59⟩)
  else if t = "rose" then (⟨255, 228, 230⟩, ⟨254, 205, 211⟩, ⟨76, 5, 25⟩)
  else if t = "slate" then (⟨248, 250, 252⟩, ⟨226, 232, 240⟩, ⟨15, 23, 42⟩)
  else if t = "cyber" then (⟨10, 10, 16⟩, ⟨20, 14, 40⟩, ⟨218, 70, 239⟩)
  else (⟨250, 250, 250⟩, ⟨240, 240, 245⟩, ⟨17, 24, 39⟩)

/-- Python's `str.lower()` on the ASCII theme names: lower-case every
character (each `Char.toLower` maps A-Z to a-z and fixes everything else).
This is `String.toLower` written directly over the character list so that it
evaluates by kernel reduction. -/
def strLower (s : String) : String := ⟨s.data.map Char.toLower⟩

/-- Theme resolution of `build_background`: normalize the name
(`(theme or "light").lower()`) and look it up in the fixed table. -/
def themeColors (theme : String) : RGB × RGB × RGB :=
  themeColorsOfNorm (strLower (if theme = "" then "light" else theme))

/-- The theme names recognized by the `elif` chain, together with the default
name `"light"`. -/
def recognizedThemes : List String :=
  ["light", "dark", "blue", "brand", "purple", "emerald", "rose", "slate", "cyber"]

/-- All nine channel values of a resolved palette are bytes. -/
def validTriple (t : RGB × RGB × RGB) : Prop :=
  t.1.r ≤ 255 ∧ t.1.g ≤ 255 ∧ t.1.b ≤ 255 ∧
  t.2.1.r ≤ 255 ∧ t.2.1.g ≤ 255 ∧ t.2.1.b ≤ 255 ∧
  t.2.2.r ≤ 255 ∧ t.2.2.g ≤ 255 ∧ t.2.2.b ≤ 255

/-! ### Background synthesis (src/main.py lines 76-81) -/

/-- `Image.new("RGB", (w, h), c)`: a `w × h` image filled with `c`. -/
def imgNew (w h : ℕ) (c : RGB) : Img :=
  List.replicate h (List.replicate w c)

/-- `base.paste(ov, (0, y))` for a full-width overlay: the overlay's rows
replace the base's rows starting at row `y`, clipped to the base. -/
def pasteRows {α : Type} (base ov : List α) (y : ℕ) : List α :=
  base.take y ++ ov.take (base.length - y) ++ base.drop (y + ov.length)

/-- `build_background` (src/main.py lines 33-81): resolve the theme colors,
create a `w × h` canvas of `color1`, paste a `w × (h // 2)` block of `color1`
at row 0 and a `w × (h - h // 2)` block of `color2` at row `h // 2`; return
the canvas together with the theme's text color. -/
def build_background (w h : ℕ) (theme : String) : Img × RGB :=
  let colors := themeColors theme
  let color1 := colors.1
  let color2 := colors.2.1
  let text_color := colors.2.2
  let bg := imgNew w h color1
  let top := imgNew w (h / 2) color1
  let bottom := imgNew w (h - h / 2) color2
  (pasteRows (pasteRows bg top 0) bottom (h / 2), text_color)

/-! ### Grayscale conversion and mask extraction (src/main.py lines 113-124) -/

/-- Pillow's RGB→L luma reduction (convert.c, `L24(rgb) >> 16` with
`L24(rgb) = r*19595 + g*38470 + b*7471 + 0x8000`). -/
def toGrayPixel (p : RGB) : ℕ :=
  (p.r * 19595 + p.g * 38470 + p.b * 7471 + 32768) / 65536

/-- `original.convert("L")`. -/
def toGray (im : Img) : GrayImg := im.map (List.map toGrayPixel)

/-- Number of pixels of `g` with intensity exactly `i` (one histogram bin). -/
def countVal (g : GrayImg) (i : ℕ) : ℕ :=
  (g.map (fun row => row.countP (fun p => decide (p = i)))).sum

/-- `gray.histogram()`: the 256 intensity-bin counts of an L-mode image. -/
def histogram (g : GrayImg) : List ℕ := (List.range 256).map (countVal g)

/-- Number of pixels of `g` with intensity at most `i` (cumulative count). -/
def countLE (g : GrayImg) (i : ℕ) : ℕ :=
  (g.map (fun row => row.countP (fun p => decide (p ≤ i)))).sum

/-- The histogram walk of src/main.py lines 117-123: starting from
`cumsum = 0`, `thresh = 200`, add each bin count and, at the first bin index
`i` whose running total satisfies `cumsum >= total * 0.7`, return
`max 120 i`; if the list is exhausted, return the initial `thresh = 200`.
Python compares the integer `cumsum` against the IEEE double `total * 0.7`;
for every `total` below `2 ^ 49` that comparison coincides with the exact
inequality `10 * cumsum ≥ 7 * total` used here (an integer/float comparison
in Python is exact, and the double nearest 0.7 is within `2 / (5 * 2 ^ 53)`
of 7/10, far smaller than the distance from `7 * total / 10` to any other
integer at these magnitudes). -/
def threshWalk (total : ℕ) : ℕ → ℕ → List ℕ → ℕ
  | _, _, [] => 200
  | cumsum, i, v :: rest =>
    if 10 * (cumsum + v) ≥ 7 * total then max 120 i
    else threshWalk total (cumsum + v) (i + 1) rest

/-- The auto-threshold of src/main.py lines 115-123: walk the histogram with
`total = sum(hist)`. -/
def autoThreshold (hist : List ℕ) : ℕ := threshWalk hist.sum 0 0 hist

/-- Mask extraction (src/main.py lines 113-124):
`gray.point(lambda p: 255 if p < thresh else 0)` with the auto-threshold. -/
def extractMask (g : GrayImg) : GrayImg :=
  let thresh := autoThreshold (histogram g)
  g.map (List.map (fun p => if p < thresh then 255 else 0))

/-! ### Compositing (src/main.py lines 126-138)

`Image.composite(image1, image2, mask)` copies `image2` and pastes `image1`
through the L-mode mask; Pillow's Paste.c blends each channel as
`BLEND(m, in1, in2) = MULDIV255(in1, 255 - m) + MULDIV255(in2, m)` with
`MULDIV255(a, b) = SHIFTFORDIV255(a * b + 128)` and
`SHIFTFORDIV255(x) = ((x >> 8) + x) >> 8`, where `in1` is the pixel of the
copied base (`image2`) and `in2` the pasted pixel (`image1`). -/

/-- Pillow's `SHIFTFORDIV255` macro: `((x >> 8) + x) >> 8`. -/
def shiftForDiv255 (x : ℕ) : ℕ := (x / 256 + x) / 256

/-- Pillow's `MULDIV255` macro: rounded `a * b / 255`. -/
def mulDiv255 (a b : ℕ) : ℕ := shiftForDiv255 (a * b + 128)

/-- Pillow's `BLEND` macro: `in1` weighted by `255 - m`, `in2` by `m`. -/
def blendChannel (m in1 in2 : ℕ) : ℕ :=
  mulDiv255 in1 (255 - m) + mulDiv255 in2 m

/-- One pixel of `Image.composite(image1, image2, mask)`: each channel of the
`image2` pixel `p2` blended toward the `image1` pixel `p1` by the mask
value `m`. -/
def compositePixel (p1 p2 : RGB) (m : ℕ) : RGB :=
  ⟨blendChannel m p2.r p1.r, blendChannel m p2.g p1.g, blendChannel m p2.b p1.b⟩

/-- Pointwise ternary zip, used to overlay two images through a mask. -/
def zipWith3 {α β γ δ : Type} (f : α → β → γ → δ) : List α → List β → List γ → List δ
  | a :: as, b :: bs, c :: cs => f a b c :: zipWith3 f as bs cs
  | _, _, _ => []

/-- `Image.composite(image1, image2, mask)` on whole images. -/
def compositeImage (im1 im2 : Img) (mask : GrayImg) : Img :=
  zipWith3 (fun r1 r2 rm => zipWith3 compositePixel r1 r2 rm) im1 im2 mask

/-- `convert("RGBA")` of an RGB image: every pixel becomes fully opaque. -/
def convertRGBA (im : Img) : List (List RGBA) :=
  im.map (List.map (fun p => RGBA.mk p.r p.g p.b 255))

/-- `original.copy().convert("RGBA")` followed by `putalpha(alpha)` with the
uniform alpha plane of src/main.py line 134. -/
def withAlpha (im : Img) (alpha : ℕ) : List (List RGBA) :=
  im.map (List.map (fun p => RGBA.mk p.r p.g p.b alpha))

/-- One pixel of `dst.alpha_composite(src)`, from Pillow's AlphaComposite.c:
source alpha 0 keeps the destination, source alpha 255 keeps the source;
otherwise each channel is `SHIFTFORDIV255(s * coef1 + d * coef2 + (0x80 << 7))
>> 7` with the 7-bit fixed-point coefficients
`coef1 = sa * 255 * 255 * 128 / outa255`, `coef2 = 255 * 128 - coef1`,
`outa255 = sa * 255 + da * (255 - sa)`. -/
def alphaCompositePixel (dst src : RGBA) : RGBA :=
  if src.a = 0 then dst
  else if src.a = 255 then src
  else
    let blend := dst.a * (255 - src.a)
    let outa255 := src.a * 255 + blend
    let coef1 := src.a * 255 * 255 * 128 / outa255
    let coef2 := 255 * 128 - coef1
    ⟨shiftForDiv255 (src.r * coef1 + dst.r * coef2 + 16384) / 128,
     shiftForDiv255 (src.g * coef1 + dst.g * coef2 + 16384) / 128,
     shiftForDiv255 (src.b * coef1 + dst.b * coef2 + 16384) / 128,
     shiftForDiv255 (outa255 + 128)⟩

/-- `dst.alpha_composite(src)` on whole images. -/
def alphaCompositeImage (dst src : List (List RGBA)) : List (List RGBA) :=
  List.zipWith (fun drow srow => List.zipWith alphaCompositePixel drow srow) dst src

/-- `convert("RGB")`: drop the alpha channel. -/
def convertRGB (im : List (List RGBA)) : Img :=
  im.map (List.map (fun q => RGB.mk q.r q.g q.b))

/-! ### The pipeline (src/main.py lines 106-138) -/

/-- The image transform of the `/process` endpoint on an already-decoded
image (src/main.py lines 106-138): build the themed background at the
source's size, extract the threshold mask from the grayscale source,
composite the solid text-color layer over the background through the mask,
and alpha-composite the original at uniform alpha 25 over the result,
returning an RGB image. -/
def process (original : Img) (theme : String) : Img :=
  let w := width original
  let h := height original
  let bgPair := build_background w h theme
  let bg_img := bgPair.1
  let text_color := bgPair.2
  let gray := toGray original
  let mask := extractMask gray
  let text_layer := imgNew w h text_color
  let composed := compositeImage text_layer bg_img mask
  let blended := alphaCompositeImage (convertRGBA composed) (withAlpha original 25)
  convertRGB blended

/-! ### The request driver (src/main.py lines 94-148)

PNG serialization and byte-stream decoding live in the imaging library, not in
this repository; they are modelled from the spec below. -/

/-- Modelled from the spec: `composed.save(buf, format="PNG")`.  PNG
encoding is not part of this repository; the spec promises only that the
emitted bytes decode back to an image of the same size, so an encoded PNG is
modelled by the image it decodes to. -/
def pngEncode (im : Img) : Img := im

/-- Modelled from the spec: decoding the PNG bytes produced by `pngEncode`
recovers the encoded image. -/
def pngDecode (png : Img) : Img := png

/-- Modelled from the spec: uploaded request bytes, represented by their
decoding behavior — `some im` for bytes that `Image.open` decodes to the
image `im` (after `convert("RGB")`), `none` for undecodable bytes. -/
abbrev UploadBytes := Option Img

/-- The exceptions distinguished by the handler of src/main.py lines 145-148:
`HTTPException(status_code, detail)` and any other `Exception` with its
`str(e)` description. -/
inductive PyExc where
  | http (statusCode : ℕ) (detail : String)
  | other (msg : String)
deriving DecidableEq

/-- The three response shapes of the endpoint: the PNG streaming response,
an `HTTPException` surfaced by FastAPI, and the `JSONResponse` built by the
generic handler. -/
inductive Response where
  | streaming (png : Img)
  | httpError (statusCode : ℕ) (detail : String)
  | jsonError (statusCode : ℕ) (errorMsg : String)
deriving DecidableEq

/-- The body of the `try` block (src/main.py lines 99-143): decoding failure
raises `HTTPException(400, "Invalid image data")`; otherwise the pipeline
runs and its PNG is streamed. -/
def processBody (contents : UploadBytes) (theme : String) : Except PyExc Response :=
  match contents with
  | none => .error (.http 400 "Invalid image data")
  | some original => .ok (.streaming (pngEncode (process original theme)))

/-- The exception handler of src/main.py lines 145-148: an `HTTPException`
is re-raised (FastAPI turns it into the corresponding error response); any
other exception becomes `JSONResponse(status_code=500, {"error": str(e)})`. -/
def handleErrors (body : Except PyExc Response) : Response :=
  match body with
  | .ok resp => resp
  | .error (.http c d) => .httpError c d
  | .error (.other m) => .jsonError 500 m

/-- The `/process` endpoint (src/main.py lines 94-148). -/
def process_image (contents : UploadBytes) (theme : String) : Response :=
  handleErrors (processBody contents theme)

/-! ### Spec-side definitions, used to state the claims -/

/-- The background color the spec assigns to row `r` of a height-`h`
background: the palette's top color on rows `[0, h / 2)`, its bottom color on
rows `[h / 2, h)`. -/
def bandColor (theme : String) (h r : ℕ) : RGB :=
  if r < h / 2 then (themeColors theme).1 else (themeColors theme).2.1

/-- The claim's alpha-blend `out = src * (25/255) + dst * (230/255)` rounded
to the nearest integer per channel (`(2 * w + 255) / 510` is the nearest
integer to `w / 255`; ties cannot occur since `2 * w + 255` is odd). -/
def roundedOver (s d : RGB) : RGB :=
  ⟨(2 * (25 * s.r + 230 * d.r) + 255) / 510,
   (2 * (25 * s.g + 230 * d.g) + 255) / 510,
   (2 * (25 * s.b + 230 * d.b) + 255) / 510⟩

/-! ### List utilities -/

theorem zipWith3_length {α β γ δ : Type} (f : α → β → γ → δ) :
    ∀ (l1 : List α) (l2 : List β) (l3 : List γ),
      (zipWith3 f l1 l2 l3).length = min l1.length (min l2.length l3.length)
  | [], l2, l3 => by simp [zipWith3]
  | a :: as, [], l3 => by simp [zipWith3]
  | a :: as, b :: bs, [] => by simp [zipWith3]
  | a :: as, b :: bs, c :: cs => by
    simp [zipWith3, zipWith3_length f as bs cs]
    omega

theorem mem_zipWith3 {α β γ δ : Type} (f : α → β → γ → δ) :
    ∀ (l1 : List α) (l2 : List β) (l3 : List γ) (x : δ),
      x ∈ zipWith3 f l1 l2 l3 → ∃ a ∈ l1, ∃ b ∈ l2, ∃ c ∈ l3, x = f a b c
  | a :: as, b :: bs, c :: cs, x, hx => by
    rcases List.mem_cons.mp hx with h | h
    · exact ⟨a, List.mem_cons_self .., b, List.mem_cons_self .., c, List.mem_cons_self .., h⟩
    · obtain ⟨a', ha, b', hb, c', hc, hx⟩ := mem_zipWith3 f as bs cs x h
      exact ⟨a', List.mem_cons_of_mem _ ha, b', List.mem_cons_of_mem _ hb,
        c', List.mem_cons_of_mem _ hc, hx⟩

theorem getElem_zipWith3 {α β γ δ : Type} (f : α → β → γ → δ) :
    ∀ (l1 : List α) (l2 : List β) (l3 : List γ) (i : ℕ)
      (h : i < (zipWith3 f l1 l2 l3).length)
      (h1 : i < l1.length) (h2 : i < l2.length) (h3 : i < l3.length),
      (zipWith3 f l1 l2 l3)[i] = f l1[i] l2[i] l3[i]
  | a :: as, b :: bs, c :: cs, 0, h, h1, h2, h3 => rfl
  | a :: as, b :: bs, c :: cs, i + 1, h, h1, h2, h3 => by
    simpa [zipWith3] using getElem_zipWith3 f as bs cs i (by simpa [zipWith3] using h)
      (by simpa using h1) (by simpa using h2) (by simpa using h3)

theorem mem_zipWith' {α β γ : Type} (f : α → β → γ) :
    ∀ (l1 : List α) (l2 : List β) (x : γ),
      x ∈ List.zipWith f l1 l2 → ∃ a ∈ l1, ∃ b ∈ l2, x = f a b
  | a :: as, b :: bs, x, hx => by
    rcases List.mem_cons.mp hx with h | h
    · exact ⟨a, List.mem_cons_self .., b, List.mem_cons_self .., h⟩
    · obtain ⟨a', ha, b', hb, hx⟩ := mem_zipWith' f as bs x h
      exact ⟨a', List.mem_cons_of_mem _ ha, b', List.mem_cons_of_mem _ hb, hx⟩

theorem getD_mem_of_lt {α : Type} {l : List α} {n : ℕ} (h : n < l.length) (d : α) :
    l.getD n d ∈ l := by
  rw [List.getD_eq_getElem l d h]
  exact List.getElem_mem h

/-! ### Shape lemmas -/

theorem rect_map {α β : Type} {im : List (List α)} {w h : ℕ} (f : α → β)
    (hr : Rect im w h) : Rect (im.map (List.map f)) w h := by
  obtain ⟨hl, hw⟩ := hr
  refine ⟨by simpa using hl, ?_⟩
  intro row hrow
  obtain ⟨row0, hrow0, rfl⟩ := List.mem_map.mp hrow
  simpa using hw row0 hrow0

theorem rect_row_len {α : Type} {im : List (List α)} {w h r : ℕ}
    (hr : Rect im w h) (hlt : r < h) : (im.getD r []).length = w :=
  hr.2 _ (getD_mem_of_lt (by rw [hr.1]; exact hlt) [])

theorem rect_imgNew (w h : ℕ) (c : RGB) : Rect (imgNew w h c) w h := by
  constructor
  · simp [imgNew]
  · intro row hrow
    rw [List.eq_of_mem_replicate hrow]
    simp

theorem rect_toGray {im : Img} {w h : ℕ} (hr : Rect im w h) :
    Rect (toGray im) w h := rect_map _ hr

theorem rect_extractMask {g : GrayImg} {w h : ℕ} (hr : Rect g w h) :
    Rect (extractMask g) w h := rect_map _ hr

theorem rect_compositeImage {im1 im2 : Img} {mask : GrayImg} {w h : ℕ}
    (h1 : Rect im1 w h) (h2 : Rect im2 w h) (hm : Rect mask w h) :
    Rect (compositeImage im1 im2 mask) w h := by
  constructor
  · simp [compositeImage, zipWith3_length, h1.1, h2.1, hm.1]
  · intro row hrow
    obtain ⟨r1, hr1, r2, hr2, rm, hrm, rfl⟩ := mem_zipWith3 _ _ _ _ _ hrow
    simp [zipWith3_length, h1.2 r1 hr1, h2.2 r2 hr2, hm.2 rm hrm]

theorem rect_convertRGBA {im : Img} {w h : ℕ} (hr : Rect im w h) :
    Rect (convertRGBA im) w h := rect_map _ hr

theorem rect_withAlpha {im : Img} {w h a : ℕ} (hr : Rect im w h) :
    Rect (withAlpha im a) w h := rect_map _ hr

theorem rect_convertRGB {im : List (List RGBA)} {w h : ℕ} (hr : Rect im w h) :
    Rect (convertRGB im) w h := rect_map _ hr

theorem rect_alphaCompositeImage {dst src : List (List RGBA)} {w h : ℕ}
    (hd : Rect dst w h) (hs : Rect src w h) :
    Rect (alphaCompositeImage dst src) w h := by
  constructor
  · simp [alphaCompositeImage, hd.1, hs.1]
  · intro row hrow
    obtain ⟨r1, hr1, r2, hr2, rfl⟩ := mem_zipWith' _ _ _ _ hrow
    simp [hd.2 r1 hr1, hs.2 r2 hr2]

/-! ### Structure of the synthesized background -/

theorem pasteRows_replicate_eq {α : Type} (h k : ℕ) (hk : k ≤ h) (a b : α) :
    pasteRows (List.replicate h a) (List.replicate (h - k) b) k =
      List.replicate k a ++ List.replicate (h - k) b := by
  simp only [pasteRows, List.length_replicate, List.take_replicate,
    List.drop_replicate, Nat.min_self]
  rw [Nat.min_eq_left hk]
  have h0 : h - (k + (h - k)) = 0 := by omega
  rw [h0, List.replicate_zero, List.append_nil]

theorem build_background_fst (w h : ℕ) (theme : String) :
    (build_background w h theme).1 =
      List.replicate (h / 2) (List.replicate w (themeColors theme).1) ++
      List.replicate (h - h / 2) (List.replicate w (themeColors theme).2.1) := by
  have hdiv : h / 2 ≤ h := Nat.div_le_self h 2
  have e1 : pasteRows (imgNew w h (themeColors theme).1)
      (imgNew w (h / 2) (themeColors theme).1) 0 = imgNew w h (themeColors theme).1 := by
    simp only [pasteRows, imgNew, List.length_replicate, List.take_replicate,
      List.drop_replicate, Nat.sub_zero, Nat.zero_add, Nat.zero_min,
      List.replicate_zero, List.nil_append]
    rw [Nat.min_eq_right hdiv, ← List.replicate_add]
    congr 1
    omega
  show pasteRows (pasteRows (imgNew w h (themeColors theme).1)
      (imgNew w (h / 2) (themeColors theme).1) 0)
      (imgNew w (h - h / 2) (themeColors theme).2.1) (h / 2) = _
  rw [e1]
  exact pasteRows_replicate_eq h (h / 2) hdiv _ _

theorem rect_build_background (w h : ℕ) (theme : String) :
    Rect (build_background w h theme).1 w h := by
  rw [build_background_fst]
  constructor
  · simp [Nat.add_sub_cancel' (Nat.div_le_self h 2)]
  · intro row hrow
    rcases List.mem_append.mp hrow with hmem | hmem <;>
      rw [List.eq_of_mem_replicate hmem] <;> simp

/-! ### Histogram lemmas -/

theorem sum_map_range (f : ℕ → ℕ) : ∀ n : ℕ,
    ((List.range n).map f).sum = ∑ k in Finset.range n, f k
  | 0 => by simp
  | n + 1 => by
    rw [List.range_succ, List.map_append, List.sum_append, Finset.sum_range_succ,
      sum_map_range f n]
    simp

theorem countP_le_eq_sum (row : List ℕ) (i : ℕ) :
    row.countP (fun p => decide (p ≤ i)) =
      ∑ k in Finset.range (i + 1), row.countP (fun p => decide (p = k)) := by
  induction row with
  | nil => simp
  | cons a l ih =>
    simp only [List.countP_cons, Finset.sum_add_distrib, ← ih]
    congr 1
    simp only [decide_eq_true_eq]
    rw [Finset.sum_ite_eq (Finset.range (i + 1)) a (fun _ => 1)]
    simp [Finset.mem_range, Nat.lt_succ_iff]

theorem sum_map_sum {α : Type} (g : List α) (s : Finset ℕ) (F : ℕ → α → ℕ) :
    ∑ k in s, (g.map (F k)).sum = (g.map (fun a => ∑ k in s, F k a)).sum := by
  induction g with
  | nil => simp
  | cons a l ih => simp [Finset.sum_add_distrib, ih]

theorem countLE_eq_sum (g : GrayImg) (i : ℕ) :
    countLE g i = ∑ k in Finset.range (i + 1), countVal g k := by
  unfold countLE countVal
  rw [sum_map_sum g (Finset.range (i + 1))
    (fun k row => row.countP (fun p => decide (p = k)))]
  simp only [countP_le_eq_sum]

theorem histogram_take_sum (g : GrayImg) (i : ℕ) (hi : i < 256) :
    ((histogram g).take (i + 1)).sum = countLE g i := by
  unfold histogram
  rw [← List.map_take, List.take_range, Nat.min_eq_left (by omega),
    sum_map_range, countLE_eq_sum]

theorem countLE_255 (g : GrayImg) (hg : GrayValid g) : countLE g 255 = numPixels g := by
  unfold countLE numPixels
  congr 1
  apply List.map_congr_left
  intro row hrow
  exact List.countP_eq_length.mpr (fun a ha => by simpa using hg row hrow a ha)

theorem histogram_length (g : GrayImg) : (histogram g).length = 256 := by
  simp [histogram]

theorem histogram_sum (g : GrayImg) (hg : GrayValid g) :
    (histogram g).sum = numPixels g := by
  have h := histogram_take_sum g 255 (by omega)
  rw [List.take_of_length_le (by rw [histogram_length])] at h
  rw [h, countLE_255 g hg]

/-! ### The histogram walk -/

theorem threshWalk_spec (total : ℕ) (l : List ℕ) :
    ∀ cumsum i : ℕ,
      (∃ j, j < l.length ∧
        10 * (cumsum + (l.take (j + 1)).sum) ≥ 7 * total ∧
        (∀ k, k < j → 10 * (cumsum + (l.take (k + 1)).sum) < 7 * total) ∧
        threshWalk total cumsum i l = max 120 (i + j)) ∨
      ((∀ j, j < l.length → 10 * (cumsum + (l.take (j + 1)).sum) < 7 * total) ∧
        threshWalk total cumsum i l = 200) := by
  induction l with
  | nil =>
    intro cumsum i
    exact .inr ⟨by simp, rfl⟩
  | cons v rest ih =>
    intro cumsum i
    by_cases hc : 10 * (cumsum + v) ≥ 7 * total
    · refine .inl ⟨0, by simp, by simpa using hc, ?_, ?_⟩
      · intro k hk
        exact absurd hk (Nat.not_lt_zero k)
      · simp [threshWalk, hc]
    · have hlt : 10 * (cumsum + v) < 7 * total := by omega
      have hstep : threshWalk total cumsum i (v :: rest) =
          threshWalk total (cumsum + v) (i + 1) rest := by
        simp [threshWalk, hc]
      rcases ih (cumsum + v) (i + 1) with ⟨j, hj, hge, hfirst, hres⟩ | ⟨hall, hres⟩
      · refine .inl ⟨j + 1, by simpa using Nat.succ_lt_succ hj, ?_, ?_, ?_⟩
        · simpa [List.take_succ_cons, Nat.add_assoc] using hge
        · intro k hk
          cases k with
          | zero => simpa using hlt
          | succ k' =>
            have h := hfirst k' (by omega)
            simpa [List.take_succ_cons, Nat.add_assoc] using h
        · rw [hstep, hres]
          congr 1
          omega
      · refine .inr ⟨?_, by rw [hstep, hres]⟩
        intro j hj
        cases j with
        | zero => simpa using hlt
        | succ j' =>
          have h := hall j' (by simpa using hj)
          simpa [List.take_succ_cons, Nat.add_assoc] using h

/-- The auto-threshold always comes out of the walk's break: there is a first
bin index `i < 256` at which the running count reaches 70% of the total, and
the threshold is `max 120 i`. -/
theorem autoThreshold_spec (g : GrayImg) (hg : GrayValid g) :
    ∃ i, i < 256 ∧ 10 * countLE g i ≥ 7 * numPixels g ∧
      (∀ j, j < i → 10 * countLE g j < 7 * numPixels g) ∧
      autoThreshold (histogram g) = max 120 i := by
  have hlen := histogram_length g
  have htot := histogram_sum g hg
  rcases threshWalk_spec (histogram g).sum (histogram g) 0 0 with
    ⟨j, hj, hge, hfirst, hres⟩ | ⟨hall, _⟩
  · rw [hlen] at hj
    refine ⟨j, hj, ?_, ?_, ?_⟩
    · have h := hge
      rw [histogram_take_sum g j hj, htot] at h
      simpa using h
    · intro k hk
      have h := hfirst k hk
      rw [histogram_take_sum g k (by omega), htot] at h
      simpa using h
    · unfold autoThreshold
      rw [hres]
      simp
  · exfalso
    have h255 := hall 255 (by omega)
    rw [histogram_take_sum g 255 (by omega), htot, countLE_255 g hg] at h255
    omega

/-! ### Decidability of the validity predicates -/

instance validTriple_decidable (t : RGB × RGB × RGB) : Decidable (validTriple t) := by
  unfold validTriple
  infer_instance

instance rect_decidable {α : Type} (im : List (List α)) (w h : ℕ) :
    Decidable (Rect im w h) := by
  unfold Rect
  infer_instance

instance validImg_decidable (im : Img) : Decidable (ValidImg im) := by
  unfold ValidImg
  infer_instance

instance grayValid_decidable (g : GrayImg) : Decidable (GrayValid g) := by
  unfold GrayValid
  infer_instance

/-! ### Grayscale bounds -/

theorem toGrayPixel_le (p : RGB) (hp : p.r ≤ 255 ∧ p.g ≤ 255 ∧ p.b ≤ 255) :
    toGrayPixel p ≤ 255 := by
  unfold toGrayPixel
  have hnum : p.r * 19595 + p.g * 38470 + p.b * 7471 + 32768 ≤ 16744448 := by omega
  calc (p.r * 19595 + p.g * 38470 + p.b * 7471 + 32768) / 65536
      ≤ 16744448 / 65536 := Nat.div_le_div_right hnum
    _ = 255 := by norm_num

theorem toGray_valid {im : Img} (hv : ValidImg im) : GrayValid (toGray im) := by
  intro row hrow p hp
  obtain ⟨row0, hrow0, rfl⟩ := List.mem_map.mp hrow
  obtain ⟨p0, hp0, rfl⟩ := List.mem_map.mp hp
  exact toGrayPixel_le p0 (hv row0 hrow0 p0 hp0)

/-! ### Fixed-point arithmetic of the imaging layer -/

theorem mulDiv255_zero (a : ℕ) : mulDiv255 a 0 = 0 := by
  simp [mulDiv255, shiftForDiv255]

theorem mulDiv255_255 : ∀ a : ℕ, a < 256 → mulDiv255 a 255 = a := by decide

theorem blendChannel_mask255 (d s : ℕ) (hs : s < 256) : blendChannel 255 d s = s := by
  unfold blendChannel
  rw [Nat.sub_self, mulDiv255_zero, mulDiv255_255 s hs, Nat.zero_add]

theorem blendChannel_mask0 (d s : ℕ) (hd : d < 256) : blendChannel 0 d s = d := by
  unfold blendChannel
  rw [Nat.sub_zero, mulDiv255_255 d hd, mulDiv255_zero, Nat.add_zero]

theorem compositePixel_mask255 (p1 p2 : RGB)
    (h1 : p1.r ≤ 255 ∧ p1.g ≤ 255 ∧ p1.b ≤ 255) :
    compositePixel p1 p2 255 = p1 := by
  unfold compositePixel
  rw [blendChannel_mask255 p2.r p1.r (by omega),
    blendChannel_mask255 p2.g p1.g (by omega),
    blendChannel_mask255 p2.b p1.b (by omega)]

theorem compositePixel_mask0 (p1 p2 : RGB)
    (h2 : p2.r ≤ 255 ∧ p2.g ≤ 255 ∧ p2.b ≤ 255) :
    compositePixel p1 p2 0 = p2 := by
  unfold compositePixel
  rw [blendChannel_mask0 p2.r p1.r (by omega),
    blendChannel_mask0 p2.g p1.g (by omega),
    blendChannel_mask0 p2.b p1.b (by omega)]

/-- Pillow's 7-bit fixed-point alpha blend at the coefficients of this
pipeline equals nearest-integer rounding of `x / 255`. -/
theorem roundLemma (x : ℕ) (hx : x < 65536) :
    shiftForDiv255 (128 * x + 16384) / 128 = (2 * x + 255) / 510 := by
  unfold shiftForDiv255
  have h1 : (128 * x + 16384) / 256 = (x + 128) / 2 := by omega
  rw [h1, Nat.div_div_eq_div_mul]
  omega

theorem alphaChannel_formula (s d : ℕ) (hs : s ≤ 255) (hd : d ≤ 255) :
    shiftForDiv255 (s * 3200 + d * 29440 + 16384) / 128 =
      (2 * (25 * s + 230 * d) + 255) / 510 := by
  have he : s * 3200 + d * 29440 + 16384 = 128 * (25 * s + 230 * d) + 16384 := by ring
  rw [he]
  exact roundLemma (25 * s + 230 * d) (by omega)

theorem alphaCompositePixel_25 (d s : RGBA) (hsa : s.a = 25) (hda : d.a = 255)
    (hs : s.r ≤ 255 ∧ s.g ≤ 255 ∧ s.b ≤ 255)
    (hd : d.r ≤ 255 ∧ d.g ≤ 255 ∧ d.b ≤ 255) :
    alphaCompositePixel d s =
      ⟨(2 * (25 * s.r + 230 * d.r) + 255) / 510,
       (2 * (25 * s.g + 230 * d.g) + 255) / 510,
       (2 * (25 * s.b + 230 * d.b) + 255) / 510, 255⟩ := by
  unfold alphaCompositePixel
  rw [hsa, hda]
  norm_num
  refine ⟨?_, ?_, ?_, ?_⟩
  · exact alphaChannel_formula s.r d.r hs.1 hd.1
  · exact alphaChannel_formula s.g d.g hs.2.1 hd.2.1
  · exact alphaChannel_formula s.b d.b hs.2.2 hd.2.2
  · decide

theorem alphaCompositePixel_roundedOver (d s : RGB)
    (hs : s.r ≤ 255 ∧ s.g ≤ 255 ∧ s.b ≤ 255)
    (hd : d.r ≤ 255 ∧ d.g ≤ 255 ∧ d.b ≤ 255) :
    alphaCompositePixel (RGBA.mk d.r d.g d.b 255) (RGBA.mk s.r s.g s.b 25) =
      RGBA.mk (roundedOver s d).r (roundedOver s d).g (roundedOver s d).b 255 := by
  rw [alphaCompositePixel_25 (RGBA.mk d.r d.g d.b 255) (RGBA.mk s.r s.g s.b 25)
    rfl rfl hs hd]
  unfold roundedOver
  rfl

/-! ### Pixel access lemmas -/

theorem getD_getD_map {α β : Type} (f : α → β) (im : List (List α)) (r c : ℕ)
    (hr : r < im.length) (hc : c < (im.getD r []).length) (d : β) (d' : α) :
    ((im.map (List.map f)).getD r []).getD c d = f ((im.getD r []).getD c d') := by
  have hr' : r < (im.map (List.map f)).length := by simpa using hr
  rw [List.getD_eq_getElem _ _ hr', List.getElem_map]
  have hc' : c < im[r].length := by rwa [List.getD_eq_getElem _ _ hr] at hc
  rw [List.getD_eq_getElem _ _ (by simpa using hc'), List.getElem_map,
    List.getD_eq_getElem _ _ hr, List.getD_eq_getElem _ _ hc']

theorem getD_getD_zipWith {α β γ : Type} (f : α → β → γ)
    (A : List (List α)) (B : List (List β)) (r c : ℕ)
    (hrA : r < A.length) (hrB : r < B.length)
    (hcA : c < (A.getD r []).length) (hcB : c < (B.getD r []).length)
    (d : γ) (dA : α) (dB : β) :
    ((List.zipWith (fun ra rb => List.zipWith f ra rb) A B).getD r []).getD c d =
      f ((A.getD r []).getD c dA) ((B.getD r []).getD c dB) := by
  have hrZ : r < (List.zipWith (fun ra rb => List.zipWith f ra rb) A B).length := by
    rw [List.length_zipWith]
    omega
  rw [List.getD_eq_getElem _ _ hrZ, List.getElem_zipWith]
  have hcA' : c < A[r].length := by rwa [List.getD_eq_getElem _ _ hrA] at hcA
  have hcB' : c < B[r].length := by rwa [List.getD_eq_getElem _ _ hrB] at hcB
  have hcZ : c < (List.zipWith f A[r] B[r]).length := by
    rw [List.length_zipWith]
    omega
  rw [List.getD_eq_getElem _ _ hcZ, List.getElem_zipWith,
    List.getD_eq_getElem _ _ hrA, List.getD_eq_getElem _ _ hrB,
    List.getD_eq_getElem _ _ hcA', List.getD_eq_getElem _ _ hcB']

theorem getD_getD_zipWith3 {α β γ δ : Type} (f : α → β → γ → δ)
    (A : List (List α)) (B : List (List β)) (C : List (List γ)) (r c : ℕ)
    (hrA : r < A.length) (hrB : r < B.length) (hrC : r < C.length)
    (hcA : c < (A.getD r []).length) (hcB : c < (B.getD r []).length)
    (hcC : c < (C.getD r []).length) (d : δ) (dA : α) (dB : β) (dC : γ) :
    ((zipWith3 (fun ra rb rc => zipWith3 f ra rb rc) A B C).getD r []).getD c d =
      f ((A.getD r []).getD c dA) ((B.getD r []).getD c dB) ((C.getD r []).getD c dC) := by
  have hrZ : r < (zipWith3 (fun ra rb rc => zipWith3 f ra rb rc) A B C).length := by
    rw [zipWith3_length]
    omega
  rw [List.getD_eq_getElem _ _ hrZ,
    getElem_zipWith3 _ A B C r hrZ hrA hrB hrC]
  have hcA' : c < A[r].length := by rwa [List.getD_eq_getElem _ _ hrA] at hcA
  have hcB' : c < B[r].length := by rwa [List.getD_eq_getElem _ _ hrB] at hcB
  have hcC' : c < C[r].length := by rwa [List.getD_eq_getElem _ _ hrC] at hcC
  have hcZ : c < (zipWith3 f A[r] B[r] C[r]).length := by
    rw [zipWith3_length]
    omega
  rw [List.getD_eq_getElem _ _ hcZ,
    getElem_zipWith3 f A[r] B[r] C[r] c hcZ hcA' hcB' hcC',
    List.getD_eq_getElem _ _ hrA, List.getD_eq_getElem _ _ hrB,
    List.getD_eq_getElem _ _ hrC, List.getD_eq_getElem _ _ hcA',
    List.getD_eq_getElem _ _ hcB', List.getD_eq_getElem _ _ hcC']

theorem pixelAt_imgNew (w h : ℕ) (c0 : RGB) (r c : ℕ) (hr : r < h) (hc : c < w) :
    pixelAt (imgNew w h c0) r c = c0 := by
  unfold pixelAt imgNew
  have h1 : (List.replicate h (List.replicate w c0)).getD r [] = List.replicate w c0 := by
    rw [List.getD_eq_getElem _ _ (by simpa using hr)]
    simp
  rw [h1, List.getD_eq_getElem _ _ (by simpa using hc)]
  simp

theorem pixelAt_build_background (w h : ℕ) (theme : String) (r c : ℕ)
    (hr : r < h) (hc : c < w) :
    pixelAt (build_background w h theme).1 r c = bandColor theme h r := by
  rw [build_background_fst]
  unfold pixelAt bandColor
  by_cases hcase : r < h / 2
  · have h1 : (List.replicate (h / 2) (List.replicate w (themeColors theme).1) ++
        List.replicate (h - h / 2) (List.replicate w (themeColors theme).2.1)).getD r [] =
        List.replicate w (themeColors theme).1 := by
      rw [List.getD_append _ _ _ _ (by simpa using hcase),
        List.getD_eq_getElem _ _ (by simpa using hcase)]
      simp
    rw [h1, List.getD_eq_getElem _ _ (by simpa using hc), if_pos hcase]
    simp
  · have hlen : (List.replicate (h / 2) (List.replicate w (themeColors theme).1)).length ≤ r := by
      simp only [List.length_replicate]
      omega
    have h1 : (List.replicate (h / 2) (List.replicate w (themeColors theme).1) ++
        List.replicate (h - h / 2) (List.replicate w (themeColors theme).2.1)).getD r [] =
        List.replicate w (themeColors theme).2.1 := by
      rw [List.getD_append_right _ _ _ _ hlen,
        List.getD_eq_getElem _ _ (by simp only [List.length_replicate]; omega)]
      simp
    rw [h1, List.getD_eq_getElem _ _ (by simpa using hc), if_neg hcase]
    simp

theorem grayAt_extractMask (g : GrayImg) (r c : ℕ)
    (hr : r < g.length) (hc : c < (g.getD r []).length) :
    grayAt (extractMask g) r c =
      if grayAt g r c < autoThreshold (histogram g) then 255 else 0 := by
  unfold extractMask grayAt
  exact getD_getD_map _ g r c hr hc 0 0

theorem pixelAt_mem {im : Img} {w h : ℕ} (hrect : Rect im w h) {r c : ℕ}
    (hr : r < h) (hc : c < w) :
    ∃ row ∈ im, pixelAt im r c ∈ row := by
  have hr' : r < im.length := by rw [hrect.1]; exact hr
  refine ⟨im.getD r [], getD_mem_of_lt hr' [], ?_⟩
  unfold pixelAt
  exact getD_mem_of_lt (by rw [rect_row_len hrect hr]; exact hc) _

theorem width_eq {im : Img} {w h : ℕ} (hrect : Rect im w h) (hpos : 0 < h) :
    width im = w := by
  cases im with
  | nil =>
    exfalso
    have := hrect.1
    simp at this
    omega
  | cons a t => exact hrect.2 a (List.mem_cons_self ..)

/-! ### Theme color validity and background facts -/

theorem build_background_snd (w h : ℕ) (theme : String) :
    (build_background w h theme).2 = (themeColors theme).2.2 := rfl

theorem themeColorsOfNorm_valid (t : String) : validTriple (themeColorsOfNorm t) := by
  unfold themeColorsOfNorm
  repeat' split
  all_goals decide

theorem themeColors_valid (theme : String) : validTriple (themeColors theme) :=
  themeColorsOfNorm_valid _

theorem bandColor_valid (theme : String) (h r : ℕ) :
    (bandColor theme h r).r ≤ 255 ∧ (bandColor theme h r).g ≤ 255 ∧
      (bandColor theme h r).b ≤ 255 := by
  have hval := themeColors_valid theme
  unfold validTriple at hval
  unfold bandColor
  split
  · exact ⟨hval.1, hval.2.1, hval.2.2.1⟩
  · exact ⟨hval.2.2.2.1, hval.2.2.2.2.1, hval.2.2.2.2.2.1⟩

theorem textColor_valid (theme : String) :
    (themeColors theme).2.2.r ≤ 255 ∧ (themeColors theme).2.2.g ≤ 255 ∧
      (themeColors theme).2.2.b ≤ 255 := by
  have hval := themeColors_valid theme
  unfold validTriple at hval
  exact ⟨hval.2.2.2.2.2.2.1, hval.2.2.2.2.2.2.2.1, hval.2.2.2.2.2.2.2.2⟩

theorem grayAt_extractMask_binary (g : GrayImg) (r c : ℕ)
    (hr : r < g.length) (hc : c < (g.getD r []).length) :
    grayAt (extractMask g) r c = 0 ∨ grayAt (extractMask g) r c = 255 := by
  rw [grayAt_extractMask g r c hr hc]
  by_cases hlt : grayAt g r c < autoThreshold (histogram g)
  · right
    rw [if_pos hlt]
  · left
    rw [if_neg hlt]

/-! ### Shape and pixels of the whole pipeline -/

theorem rect_process {im : Img} {w h : ℕ} (hrect : Rect im w h) (theme : String) :
    Rect (process im theme) w h := by
  by_cases hpos : 0 < h
  · have hW := width_eq hrect hpos
    have hH : height im = h := hrect.1
    simp only [process]
    rw [hW, hH, build_background_snd]
    exact rect_convertRGB (rect_alphaCompositeImage
      (rect_convertRGBA (rect_compositeImage (rect_imgNew w h _)
        (rect_build_background w h theme)
        (rect_extractMask (rect_toGray hrect))))
      (rect_withAlpha hrect))
  · have h0 : h = 0 := by omega
    subst h0
    have him : im = [] := List.length_eq_zero.mp hrect.1
    subst him
    constructor
    · rfl
    · intro row hrow
      have hnil : process [] theme = [] := rfl
      rw [hnil] at hrow
      simp at hrow

theorem process_pixel (im : Img) (theme : String) (w h : ℕ)
    (hrect : Rect im w h) (hv : ValidImg im) (r c : ℕ) (hr : r < h) (hc : c < w) :
    pixelAt (process im theme) r c =
      roundedOver (pixelAt im r c)
        (if grayAt (extractMask (toGray im)) r c = 255
         then (themeColors theme).2.2 else bandColor theme h r) := by
  have hpos : 0 < h := by omega
  have hW := width_eq hrect hpos
  have hH : height im = h := hrect.1
  have hgrayRect : Rect (toGray im) w h := rect_toGray hrect
  have hmaskRect : Rect (extractMask (toGray im)) w h := rect_extractMask hgrayRect
  have hbgRect : Rect (build_background w h theme).1 w h := rect_build_background w h theme
  have htlRect : Rect (imgNew w h (themeColors theme).2.2) w h := rect_imgNew w h _
  have hcompRect : Rect (compositeImage (imgNew w h (themeColors theme).2.2)
      (build_background w h theme).1 (extractMask (toGray im))) w h :=
    rect_compositeImage htlRect hbgRect hmaskRect
  have hARect : Rect (convertRGBA (compositeImage (imgNew w h (themeColors theme).2.2)
      (build_background w h theme).1 (extractMask (toGray im)))) w h :=
    rect_convertRGBA hcompRect
  have hBRect : Rect (withAlpha im 25) w h := rect_withAlpha hrect
  have hXRect : Rect (alphaCompositeImage
      (convertRGBA (compositeImage (imgNew w h (themeColors theme).2.2)
        (build_background w h theme).1 (extractMask (toGray im))))
      (withAlpha im 25)) w h :=
    rect_alphaCompositeImage hARect hBRect
  -- source pixel bounds
  obtain ⟨srow, hsrow, hsmem⟩ := pixelAt_mem hrect hr hc
  have hsb := hv srow hsrow _ hsmem
  -- unfold the pipeline
  simp only [process]
  rw [hW, hH, build_background_snd]
  unfold pixelAt convertRGB
  rw [getD_getD_map (fun q : RGBA => RGB.mk q.r q.g q.b) _ r c
    (by rw [hXRect.1]; exact hr) (by rw [rect_row_len hXRect hr]; exact hc)
    ⟨0, 0, 0⟩ ⟨0, 0, 0, 0⟩]
  unfold alphaCompositeImage
  rw [getD_getD_zipWith alphaCompositePixel _ _ r c
    (by rw [hARect.1]; exact hr) (by rw [hBRect.1]; exact hr)
    (by rw [rect_row_len hARect hr]; exact hc) (by rw [rect_row_len hBRect hr]; exact hc)
    ⟨0, 0, 0, 0⟩ ⟨0, 0, 0, 0⟩ ⟨0, 0, 0, 0⟩]
  unfold convertRGBA withAlpha
  rw [getD_getD_map (fun p : RGB => RGBA.mk p.r p.g p.b 255) _ r c
    (by rw [hcompRect.1]; exact hr) (by rw [rect_row_len hcompRect hr]; exact hc)
    ⟨0, 0, 0, 0⟩ ⟨0, 0, 0⟩]
  rw [getD_getD_map (fun p : RGB => RGBA.mk p.r p.g p.b 25) _ r c
    (by rw [hrect.1]; exact hr) (by rw [rect_row_len hrect hr]; exact hc)
    ⟨0, 0, 0, 0⟩ ⟨0, 0, 0⟩]
  unfold compositeImage
  rw [getD_getD_zipWith3 compositePixel _ _ _ r c
    (by rw [htlRect.1]; exact hr) (by rw [hbgRect.1]; exact hr) (by rw [hmaskRect.1]; exact hr)
    (by rw [rect_row_len htlRect hr]; exact hc) (by rw [rect_row_len hbgRect hr]; exact hc)
    (by rw [rect_row_len hmaskRect hr]; exact hc)
    ⟨0, 0, 0⟩ ⟨0, 0, 0⟩ ⟨0, 0, 0⟩ 0]
  -- identify the text layer, background and mask pixels
  have etl := pixelAt_imgNew w h (themeColors theme).2.2 r c hr hc
  unfold pixelAt imgNew at etl
  unfold imgNew
  rw [etl]
  have ebg := pixelAt_build_background w h theme r c hr hc
  unfold pixelAt at ebg
  rw [ebg]
  -- case split on the mask value
  have hrg : r < (toGray im).length := by rw [hgrayRect.1]; exact hr
  have hcg : c < ((toGray im).getD r []).length := by rw [rect_row_len hgrayRect hr]; exact hc
  unfold pixelAt at hsb
  unfold grayAt
  rcases grayAt_extractMask_binary (toGray im) r c hrg hcg with hm | hm <;>
    unfold grayAt at hm <;> rw [hm]
  · rw [if_neg (by decide : ¬ (0 : ℕ) = 255),
      compositePixel_mask0 _ _ (bandColor_valid theme h r)]
    rw [alphaCompositePixel_roundedOver (bandColor theme h r) _ hsb
      (bandColor_valid theme h r)]
  · rw [if_pos rfl, compositePixel_mask255 _ _ (textColor_valid theme)]
    rw [alphaCompositePixel_roundedOver (themeColors theme).2.2 _ hsb
      (textColor_valid theme)]

/-! ### Uniform-intensity images -/

theorem countLE_uniform (g : GrayImg) (v i : ℕ)
    (hu : ∀ row ∈ g, ∀ p ∈ row, p = v) :
    countLE g i = if v ≤ i then numPixels g else 0 := by
  unfold countLE numPixels
  by_cases hvi : v ≤ i
  · rw [if_pos hvi]
    congr 1
    apply List.map_congr_left
    intro row hrow
    refine List.countP_eq_length.mpr (fun a ha => ?_)
    rw [hu row hrow a ha]
    simpa using hvi
  · rw [if_neg hvi]
    apply List.sum_eq_zero
    intro x hx
    obtain ⟨row, hrow, rfl⟩ := List.mem_map.mp hx
    refine List.countP_eq_zero.mpr (fun a ha => ?_)
    rw [hu row hrow a ha]
    simpa using hvi

theorem autoThreshold_uniform255 (g : GrayImg)
    (hu : ∀ row ∈ g, ∀ p ∈ row, p = 255) (hn : 1 ≤ numPixels g) :
    autoThreshold (histogram g) = 255 := by
  have hg : GrayValid g := fun row hrow p hp => by rw [hu row hrow p hp]
  obtain ⟨i, hi, hge, hfirst, hres⟩ := autoThreshold_spec g hg
  have hival : i = 255 := by
    by_contra hne
    have h0 : countLE g i = 0 := by
      rw [countLE_uniform g 255 i hu, if_neg (by omega)]
    rw [h0] at hge
    omega
  rw [hres, hival]
  decide

theorem autoThreshold_uniform0 (g : GrayImg)
    (hu : ∀ row ∈ g, ∀ p ∈ row, p = 0) (hn : 1 ≤ numPixels g) :
    autoThreshold (histogram g) = 120 := by
  have hg : GrayValid g := fun row hrow p hp => by rw [hu row hrow p hp]; omega
  obtain ⟨i, hi, hge, hfirst, hres⟩ := autoThreshold_spec g hg
  have hival : i = 0 := by
    by_contra hne
    have h0 := hfirst 0 (by omega)
    rw [countLE_uniform g 0 0 hu, if_pos (le_refl 0)] at h0
    omega
  rw [hres, hival]
  decide

/-! ### Claims about the threshold and the mask -/

/-- C1: the mask extractor walks the 256-bin histogram from bin 0 upward and
stops at the first bin index `i` whose cumulative count reaches 70% of the
total pixel count, setting `threshold = max 120 i` (the walk always breaks;
the fall-through default 200 never survives a valid image, see C10), and the
mask marks a pixel 255 exactly when its intensity is strictly below that
threshold, else 0. -/
theorem threshold_and_mask_C1 (im : Img) (w h : ℕ)
    (hrect : Rect im w h) (hv : ValidImg im) :
    ∃ i, i < 256 ∧
      10 * countLE (toGray im) i ≥ 7 * numPixels (toGray im) ∧
      (∀ j, j < i → 10 * countLE (toGray im) j < 7 * numPixels (toGray im)) ∧
      autoThreshold (histogram (toGray im)) = max 120 i ∧
      (∀ r c, r < h → c < w →
        grayAt (extractMask (toGray im)) r c =
          if grayAt (toGray im) r c < max 120 i then 255 else 0) := by
  obtain ⟨i, hi, hge, hfirst, hres⟩ := autoThreshold_spec (toGray im) (toGray_valid hv)
  refine ⟨i, hi, hge, hfirst, hres, ?_⟩
  intro r c hr hc
  have hgrayRect := rect_toGray hrect
  rw [grayAt_extractMask (toGray im) r c (by rw [hgrayRect.1]; exact hr)
    (by rw [rect_row_len hgrayRect hr]; exact hc), hres]

theorem threshold_and_mask_C1_witness :
    Rect ([[RGB.mk 0 0 0]] : Img) 1 1 ∧ ValidImg [[RGB.mk 0 0 0]] ∧
    ∃ i, i < 256 ∧
      10 * countLE (toGray [[RGB.mk 0 0 0]]) i ≥
        7 * numPixels (toGray [[RGB.mk 0 0 0]]) ∧
      (∀ j, j < i → 10 * countLE (toGray [[RGB.mk 0 0 0]]) j <
        7 * numPixels (toGray [[RGB.mk 0 0 0]])) ∧
      autoThreshold (histogram (toGray [[RGB.mk 0 0 0]])) = max 120 i ∧
      (∀ r c, r < 1 → c < 1 →
        grayAt (extractMask (toGray [[RGB.mk 0 0 0]])) r c =
          if grayAt (toGray [[RGB.mk 0 0 0]]) r c < max 120 i then 255 else 0) :=
  ⟨by decide, by decide,
    threshold_and_mask_C1 [[RGB.mk 0 0 0]] 1 1 (by decide) (by decide)⟩

/-- C2 (counterexample): for the 1×1 pure-white image, the computed threshold
is not at most 200 — the histogram walk only reaches 70% of the total at bin
255, so the threshold is `max 120 255 = 255`. -/
theorem all_white_threshold_C2_counterexample :
    (∀ row ∈ toGray [[RGB.mk 255 255 255]], ∀ p ∈ row, p = 255) ∧
    1 ≤ numPixels (toGray [[RGB.mk 255 255 255]]) ∧
    ¬ autoThreshold (histogram (toGray [[RGB.mk 255 255 255]])) ≤ 200 :=
  ⟨by decide, by decide, by decide⟩

/-- C2 (amended): for every all-white source image (uniform intensity 255,
at least one pixel) the computed threshold is exactly 255 — not at most 200 —
and the resulting mask is still all-zero, since 255 < 255 fails. -/
theorem all_white_mask_C2 (im : Img)
    (hwhite : ∀ row ∈ toGray im, ∀ p ∈ row, p = 255)
    (hn : 1 ≤ numPixels (toGray im)) :
    autoThreshold (histogram (toGray im)) = 255 ∧
      ∀ row ∈ extractMask (toGray im), ∀ p ∈ row, p = 0 := by
  have ht := autoThreshold_uniform255 (toGray im) hwhite hn
  refine ⟨ht, ?_⟩
  intro row hrow p hp
  simp only [extractMask] at hrow
  obtain ⟨row0, hrow0, rfl⟩ := List.mem_map.mp hrow
  obtain ⟨v, hv, rfl⟩ := List.mem_map.mp hp
  rw [hwhite row0 hrow0 v hv, ht]
  simp

theorem all_white_mask_C2_witness :
    (∀ row ∈ toGray [[RGB.mk 255 255 255]], ∀ p ∈ row, p = 255) ∧
    1 ≤ numPixels (toGray [[RGB.mk 255 255 255]]) ∧
    (autoThreshold (histogram (toGray [[RGB.mk 255 255 255]])) = 255 ∧
      ∀ row ∈ extractMask (toGray [[RGB.mk 255 255 255]]), ∀ p ∈ row, p = 0) :=
  ⟨by decide, by decide,
    all_white_mask_C2 [[RGB.mk 255 255 255]] (by decide) (by decide)⟩

/-- C6: every all-black source image (uniform intensity 0, at least one
pixel) yields an all-ink mask: the threshold is `max 120 0 = 120` and every
pixel's intensity 0 is strictly below it, so the mask is 255 everywhere. -/
theorem all_black_mask_C6 (im : Img)
    (hblack : ∀ row ∈ toGray im, ∀ p ∈ row, p = 0)
    (hn : 1 ≤ numPixels (toGray im)) :
    ∀ row ∈ extractMask (toGray im), ∀ p ∈ row, p = 255 := by
  have ht := autoThreshold_uniform0 (toGray im) hblack hn
  intro row hrow p hp
  simp only [extractMask] at hrow
  obtain ⟨row0, hrow0, rfl⟩ := List.mem_map.mp hrow
  obtain ⟨v, hv, rfl⟩ := List.mem_map.mp hp
  rw [hblack row0 hrow0 v hv, ht]
  decide

theorem all_black_mask_C6_witness :
    (∀ row ∈ toGray [[RGB.mk 0 0 0], [RGB.mk 0 0 0]], ∀ p ∈ row, p = 0) ∧
    1 ≤ numPixels (toGray [[RGB.mk 0 0 0], [RGB.mk 0 0 0]]) ∧
    ∀ row ∈ extractMask (toGray [[RGB.mk 0 0 0], [RGB.mk 0 0 0]]), ∀ p ∈ row, p = 255 :=
  ⟨by decide, by decide,
    all_black_mask_C6 [[RGB.mk 0 0 0], [RGB.mk 0 0 0]] (by decide) (by decide)⟩

/-- C10: for every source image with at least one pixel the histogram walk
terminates through its break (the cumulative count reaches 70% of the total
by bin 255 at the latest), so the initial default threshold 200 is never the
fall-through result and the final threshold lies in [120, 255]; for a
zero-pixel image the condition fires already at bin 0 (0 ≥ 0) and the
threshold is exactly `max 120 0 = 120`. -/
theorem walk_terminates_C10 (im : Img) (hv : ValidImg im) :
    (1 ≤ numPixels (toGray im) →
      ∃ i, i < 256 ∧
        10 * countLE (toGray im) i ≥ 7 * numPixels (toGray im) ∧
        (∀ j, j < i → 10 * countLE (toGray im) j < 7 * numPixels (toGray im)) ∧
        autoThreshold (histogram (toGray im)) = max 120 i ∧
        120 ≤ autoThreshold (histogram (toGray im)) ∧
        autoThreshold (histogram (toGray im)) ≤ 255) ∧
    (numPixels (toGray im) = 0 →
      10 * countLE (toGray im) 0 ≥ 7 * numPixels (toGray im) ∧
      autoThreshold (histogram (toGray im)) = 120) := by
  constructor
  · intro hn
    obtain ⟨i, hi, hge, hfirst, hres⟩ := autoThreshold_spec (toGray im) (toGray_valid hv)
    exact ⟨i, hi, hge, hfirst, hres, by rw [hres]; omega, by rw [hres]; omega⟩
  · intro h0
    obtain ⟨i, hi, hge, hfirst, hres⟩ := autoThreshold_spec (toGray im) (toGray_valid hv)
    constructor
    · rw [h0]
      omega
    · have hi0 : i = 0 := by
        by_contra hne
        have hlt := hfirst 0 (by omega)
        rw [h0] at hlt
        omega
      rw [hres, hi0]
      decide

theorem walk_terminates_C10_witness :
    ValidImg [[RGB.mk 7 7 7]] ∧
    ((1 ≤ numPixels (toGray [[RGB.mk 7 7 7]]) →
      ∃ i, i < 256 ∧
        10 * countLE (toGray [[RGB.mk 7 7 7]]) i ≥
          7 * numPixels (toGray [[RGB.mk 7 7 7]]) ∧
        (∀ j, j < i → 10 * countLE (toGray [[RGB.mk 7 7 7]]) j <
          7 * numPixels (toGray [[RGB.mk 7 7 7]])) ∧
        autoThreshold (histogram (toGray [[RGB.mk 7 7 7]])) = max 120 i ∧
        120 ≤ autoThreshold (histogram (toGray [[RGB.mk 7 7 7]])) ∧
        autoThreshold (histogram (toGray [[RGB.mk 7 7 7]])) ≤ 255) ∧
    (numPixels (toGray [[RGB.mk 7 7 7]]) = 0 →
      10 * countLE (toGray [[RGB.mk 7 7 7]]) 0 ≥
        7 * numPixels (toGray [[RGB.mk 7 7 7]]) ∧
      autoThreshold (histogram (toGray [[RGB.mk 7 7 7]])) = 120)) :=
  ⟨by decide, walk_terminates_C10 [[RGB.mk 7 7 7]] (by decide)⟩

/-! ### Claims about the background synthesizer and the theme table -/

/-- C3 (counterexample): for `w = h = 1` and the "light" palette (whose top
and bottom colors differ) the claim fails: rows `[0, 1 / 2)` is empty, so
row 0 lies in the bottom band and the pixel at row 0 is the bottom color,
not the top color. -/
theorem background_row0_C3_counterexample :
    1 ≤ (1 : ℕ) ∧
    pixelAt (build_background 1 1 "light").1 0 0 ≠ (themeColors "light").1 ∧
    pixelAt (build_background 1 1 "light").1 0 0 = (themeColors "light").2.1 :=
  ⟨le_refl 1, by decide, by decide⟩

/-- C3 (amended): for every `w` and every `h ≥ 1` the synthesized background
is exactly `w × h`, with rows `[0, h / 2)` filled with the palette's top
color and rows `[h / 2, h)` with its bottom color; the pixel at the last row
is the bottom color, the pixel at row 0 is the top color whenever `h ≥ 2`
(for `h = 1` the top band is empty and row 0 is the bottom color), and for
odd `h` the bottom band is one row taller than the top band. -/
theorem background_bands_C3 (w h : ℕ) (theme : String) (hh : 1 ≤ h) :
    Rect (build_background w h theme).1 w h ∧
    (∀ r, r < h → (build_background w h theme).1.getD r [] =
      List.replicate w (bandColor theme h r)) ∧
    (build_background w h theme).1.getD (h - 1) [] =
      List.replicate w (themeColors theme).2.1 ∧
    (2 ≤ h → (build_background w h theme).1.getD 0 [] =
      List.replicate w (themeColors theme).1) ∧
    (h % 2 = 1 → h - h / 2 = h / 2 + 1) := by
  have hrow : ∀ r, r < h → (build_background w h theme).1.getD r [] =
      List.replicate w (bandColor theme h r) := by
    intro r hr
    rw [build_background_fst]
    unfold bandColor
    by_cases hcase : r < h / 2
    · rw [List.getD_append _ _ _ _ (by simpa using hcase),
        List.getD_eq_getElem _ _ (by simpa using hcase), if_pos hcase]
      simp
    · rw [List.getD_append_right _ _ _ _ (by simpa using Nat.not_lt.mp hcase),
        List.getD_eq_getElem _ _ (by simp only [List.length_replicate]; omega),
        if_neg hcase]
      simp
  refine ⟨rect_build_background w h theme, hrow, ?_, ?_, ?_⟩
  · rw [hrow (h - 1) (by omega)]
    unfold bandColor
    rw [if_neg (by omega)]
  · intro h2
    rw [hrow 0 (by omega)]
    unfold bandColor
    rw [if_pos (by omega)]
  · intro hodd
    omega

theorem background_bands_C3_witness :
    1 ≤ (3 : ℕ) ∧
    (Rect (build_background 2 3 "dark").1 2 3 ∧
    (∀ r, r < 3 → (build_background 2 3 "dark").1.getD r [] =
      List.replicate 2 (bandColor "dark" 3 r)) ∧
    (build_background 2 3 "dark").1.getD (3 - 1) [] =
      List.replicate 2 (themeColors "dark").2.1 ∧
    (2 ≤ 3 → (build_background 2 3 "dark").1.getD 0 [] =
      List.replicate 2 (themeColors "dark").1) ∧
    (3 % 2 = 1 → 3 - 3 / 2 = 3 / 2 + 1)) :=
  ⟨by omega, background_bands_C3 2 3 "dark" (by decide)⟩

/-- C4: theme resolution is total and factors through lower-casing of the
name (with the empty string replaced by "light" first); each of the nine
recognized names maps to its fixed palette triple, every palette consists of
valid byte RGB values, and the empty or any unrecognized name resolves to
exactly the "light" palette. -/
theorem theme_resolution_C4 :
    (∀ s : String, themeColors s =
      themeColorsOfNorm (strLower (if s = "" then "light" else s))) ∧
    themeColors "light" = (⟨250, 250, 250⟩, ⟨240, 240, 245⟩, ⟨17, 24, 39⟩) ∧
    themeColors "dark" = (⟨11, 12, 16⟩, ⟨18, 19, 24⟩, ⟨245, 245, 245⟩) ∧
    themeColors "blue" = (⟨219, 234, 254⟩, ⟨191, 219, 254⟩, ⟨17, 24, 39⟩) ∧
    themeColors "brand" = (⟨250, 245, 255⟩, ⟨236, 233, 255⟩, ⟨24, 24, 27⟩) ∧
    themeColors "purple" = (⟨238, 233, 255⟩, ⟨221, 214, 254⟩, ⟨30, 27, 75⟩) ∧
    themeColors "emerald" = (⟨209, 250, 229⟩, ⟨167, 243, 208⟩, ⟨6, 78, 59⟩) ∧
    themeColors "rose" = (⟨255, 228, 230⟩, ⟨254, 205, 211⟩, ⟨76, 5, 25⟩) ∧
    themeColors "slate" = (⟨248, 250, 252⟩, ⟨226, 232, 240⟩, ⟨15, 23, 42⟩) ∧
    themeColors "cyber" = (⟨10, 10, 16⟩, ⟨20, 14, 40⟩, ⟨218, 70, 239⟩) ∧
    (∀ s : String, validTriple (themeColors s)) ∧
    themeColors "" = themeColors "light" ∧
    (∀ s : String, strLower (if s = "" then "light" else s) ∉ recognizedThemes →
      themeColors s = themeColors "light") := by
  refine ⟨fun s => rfl, by decide, by decide, by decide, by decide, by decide,
    by decide, by decide, by decide, by decide, themeColors_valid, by decide, ?_⟩
  intro s hs
  have h2 : strLower (if s = "" then "light" else s) ≠ "dark" := fun hcon => hs (by rw [hcon]; decide)
  have h3 : strLower (if s = "" then "light" else s) ≠ "blue" := fun hcon => hs (by rw [hcon]; decide)
  have h4 : strLower (if s = "" then "light" else s) ≠ "brand" := fun hcon => hs (by rw [hcon]; decide)
  have h5 : strLower (if s = "" then "light" else s) ≠ "purple" := fun hcon => hs (by rw [hcon]; decide)
  have h6 : strLower (if s = "" then "light" else s) ≠ "emerald" := fun hcon => hs (by rw [hcon]; decide)
  have h7 : strLower (if s = "" then "light" else s) ≠ "rose" := fun hcon => hs (by rw [hcon]; decide)
  have h8 : strLower (if s = "" then "light" else s) ≠ "slate" := fun hcon => hs (by rw [hcon]; decide)
  have h9 : strLower (if s = "" then "light" else s) ≠ "cyber" := fun hcon => hs (by rw [hcon]; decide)
  unfold themeColors themeColorsOfNorm
  rw [if_neg h2, if_neg h3, if_neg h4, if_neg h5, if_neg h6, if_neg h7,
    if_neg h8, if_neg h9]
  decide

theorem theme_resolution_C4_witness :
    (strLower (if "neon" = "" then "light" else "neon") ∉ recognizedThemes) ∧
      themeColors "neon" = themeColors "light" :=
  ⟨by decide, theme_resolution_C4.2.2.2.2.2.2.2.2.2.2.2.2 "neon" (by decide)⟩

/-! ### Claims about the compositor and the driver -/

/-- C5: the compositor is a per-pixel binary select followed by a uniform
alpha-25/255 overlay of the original. The mask value at every pixel is 0 or
255, so `Image.composite` degenerates to a binary select (text color where
the mask is 255, the synthesized background's band color elsewhere, no
blending); the final pixel is the claim's `out = src*α + dst*(1-α)` blend at
`α = 25/255` of the original source over that selection, rounded to the
nearest integer per channel (the code's fixed-point arithmetic; ties cannot
occur), and the output is an RGB image (alpha dropped) of the input's exact
dimensions. -/
theorem compositor_C5 (im : Img) (theme : String) (w h : ℕ)
    (hrect : Rect im w h) (hv : ValidImg im) :
    Rect (process im theme) w h ∧
    ∀ r c, r < h → c < w →
      (grayAt (extractMask (toGray im)) r c = 0 ∨
       grayAt (extractMask (toGray im)) r c = 255) ∧
      pixelAt (process im theme) r c =
        roundedOver (pixelAt im r c)
          (if grayAt (extractMask (toGray im)) r c = 255
           then (themeColors theme).2.2 else bandColor theme h r) := by
  refine ⟨rect_process hrect theme, ?_⟩
  intro r c hr hc
  have hgrayRect := rect_toGray hrect
  exact ⟨grayAt_extractMask_binary (toGray im) r c (by rw [hgrayRect.1]; exact hr)
      (by rw [rect_row_len hgrayRect hr]; exact hc),
    process_pixel im theme w h hrect hv r c hr hc⟩

theorem compositor_C5_witness :
    Rect ([[RGB.mk 9 9 9]] : Img) 1 1 ∧ ValidImg [[RGB.mk 9 9 9]] ∧
    (Rect (process [[RGB.mk 9 9 9]] "light") 1 1 ∧
    ∀ r c, r < 1 → c < 1 →
      (grayAt (extractMask (toGray [[RGB.mk 9 9 9]])) r c = 0 ∨
       grayAt (extractMask (toGray [[RGB.mk 9 9 9]])) r c = 255) ∧
      pixelAt (process [[RGB.mk 9 9 9]] "light") r c =
        roundedOver (pixelAt [[RGB.mk 9 9 9]] r c)
          (if grayAt (extractMask (toGray [[RGB.mk 9 9 9]])) r c = 255
           then (themeColors "light").2.2 else bandColor "light" 1 r)) :=
  ⟨by decide, by decide,
    compositor_C5 [[RGB.mk 9 9 9]] "light" 1 1 (by decide) (by decide)⟩

/-- C7: the driver's round trip. For every decodable upload of a `w × h`
image and every theme name the endpoint streams the PNG encoding of the
processed image; those bytes decode back to an image of exactly the same
`w × h` size, and that image is an RGB pixel grid whose RGBA extension
(`convert("RGBA")`) is fully opaque (alpha 255 everywhere). The PNG byte
codec itself lives in the imaging library and is modelled from the spec. -/
theorem roundtrip_C7 (im : Img) (theme : String) (w h : ℕ) (hrect : Rect im w h) :
    process_image (some im) theme =
      Response.streaming (pngEncode (process im theme)) ∧
    Rect (pngDecode (pngEncode (process im theme))) w h ∧
    (∀ row ∈ convertRGBA (pngDecode (pngEncode (process im theme))),
      ∀ q ∈ row, q.a = 255) := by
  refine ⟨rfl, rect_process hrect theme, ?_⟩
  intro row hrow q hq
  unfold convertRGBA at hrow
  obtain ⟨row0, hrow0, rfl⟩ := List.mem_map.mp hrow
  obtain ⟨p, hp, rfl⟩ := List.mem_map.mp hq
  rfl

theorem roundtrip_C7_witness :
    Rect ([[RGB.mk 1 2 3]] : Img) 1 1 ∧
    (process_image (some [[RGB.mk 1 2 3]]) "dark" =
      Response.streaming (pngEncode (process [[RGB.mk 1 2 3]] "dark")) ∧
    Rect (pngDecode (pngEncode (process [[RGB.mk 1 2 3]] "dark"))) 1 1 ∧
    (∀ row ∈ convertRGBA (pngDecode (pngEncode (process [[RGB.mk 1 2 3]] "dark"))),
      ∀ q ∈ row, q.a = 255)) :=
  ⟨by decide, roundtrip_C7 [[RGB.mk 1 2 3]] "dark" 1 1 (by decide)⟩

/-- C8: undecodable upload bytes give exactly the client error
`HTTPException(400, "Invalid image data")` and never a successful streaming
response; any other exception escaping the request body is converted by the
outer handler into a 500 `JSONResponse` carrying the exception's message,
while an `HTTPException` is re-raised unchanged. In every case the response
is a single value — no partial image output exists. -/
theorem error_handling_C8 :
    (∀ theme : String, process_image none theme =
      Response.httpError 400 "Invalid image data") ∧
    (∀ (theme : String) (png : Img),
      process_image none theme ≠ Response.streaming png) ∧
    (∀ msg : String, handleErrors (.error (.other msg)) = Response.jsonError 500 msg) ∧
    (∀ (code : ℕ) (detail : String),
      handleErrors (.error (.http code detail)) = Response.httpError code detail) := by
  refine ⟨fun _ => rfl, ?_, fun _ => rfl, fun _ _ => rfl⟩
  intro theme png hcon
  exact Response.noConfusion hcon

/-- C9: the pipeline is deterministic — the embedding is a pure function of
the upload bytes and the theme name, so any two runs on the same inputs
agree, and extracting the mask twice from the same grayscale image yields
the identical mask. -/
theorem determinism_C9 :
    (∀ (contents : UploadBytes) (theme : String) (resp1 resp2 : Response),
      resp1 = process_image contents theme → resp2 = process_image contents theme →
      resp1 = resp2) ∧
    (∀ (g : GrayImg) (m1 m2 : GrayImg),
      m1 = extractMask g → m2 = extractMask g → m1 = m2) :=
  ⟨fun _ _ _ _ h1 h2 => h1.trans h2.symm, fun _ _ _ h1 h2 => h1.trans h2.symm⟩

theorem determinism_C9_witness :
    process_image none "light" = process_image none "light" ∧
      extractMask [[0]] = extractMask [[0]] :=
  ⟨determinism_C9.1 none "light" _ _ rfl rfl, determinism_C9.2 [[0]] _ _ rfl rfl⟩

end OCRMain
